import Mathlib

/-!
# Verification of the brain-mri-generative-evals metric pipeline

Shallow embedding of `stai_utils/evaluations/metrics/fid.py` and
`stai_utils/evaluations/metrics/msssim.py`, together with theorems settling
the specification claims about them.

Conventions:
* Python lists / data loaders are Lean `List`s (the spec requires loaders to
  be restartable sequences with a stable order).
* Python floats are exact numbers (`ℚ` or `ℝ`); where IEEE special values
  matter (NaN from `mean`/`std` of a degenerate selection, division by zero)
  we use an explicit value type `F` with `nan`/`±inf` constructors.
* A Python function that can raise returns `Except PyError _`; the only
  runtime error reachable in the embedded code is `ZeroDivisionError`
  (the repository defines no `DegenerateInputError` anywhere).
-/

namespace BrainEvals

/-- Runtime errors reachable in the embedded code.  The repository's source
contains no `DegenerateInputError` (or any custom exception class); the only
error path in the metric modules is the final integer/float division in
`compute_pairwise_msssim`, which raises Python's `ZeroDivisionError` when
`count` is `0`. -/
inductive PyError where
  | zeroDivisionError : PyError
deriving DecidableEq

variable {α : Type} {β : Type} {γ : Type} {δ : Type} {ε : Type}

/-- Inner `for j, data2 in enumerate(loader)` loop of `compute_pairwise_msssim`
(`msssim.py` lines 10–17).  State is `(tot_metric, count)`.  The
`if count >= N: break` test runs at the top of each inner iteration, before
the `if i != j` test; `break` leaves the remaining inner iterations
unexecuted but the outer loop continues. -/
def msssimInner (sim : α → α → ℚ) (N : ℕ) (i : ℕ) (d1 : α) :
    List (ℕ × α) → ℚ × ℕ → ℚ × ℕ
  | [], st => st
  | (j, d2) :: rest, (tot, count) =>
    if N ≤ count then (tot, count)
    else if i ≠ j then msssimInner sim N i d1 rest (tot + sim d1 d2, count + 1)
    else msssimInner sim N i d1 rest (tot, count)

/-- Outer `for i, data1 in enumerate(loader)` loop of `compute_pairwise_msssim`
(`msssim.py` lines 9–17).  Each outer iteration restarts the inner
enumeration of the full loader. -/
def msssimOuter (sim : α → α → ℚ) (N : ℕ) (loader : List α) :
    List (ℕ × α) → ℚ × ℕ → ℚ × ℕ
  | [], st => st
  | (i, d1) :: rest, st =>
      msssimOuter sim N loader rest (msssimInner sim N i d1 loader.enum st)

/-- `compute_pairwise_msssim(loader, N)` from `msssim.py` lines 5–19.
`sim` abstracts `MultiScaleSSIMMetric(...)(img1, img2).item()` applied to the
two samples' `vol_data` fields.  The final statement is the unguarded
`return tot_metric / count`, which raises `ZeroDivisionError` when `count`
is `0`. -/
def compute_pairwise_msssim (loader : List α) (sim : α → α → ℚ) (N : ℕ) :
    Except PyError ℚ :=
  let st := msssimOuter sim N loader loader.enum (0, 0)
  if st.2 = 0 then .error .zeroDivisionError else .ok (st.1 / (st.2 : ℚ))

/-- The similarities contributed by one outer iteration `i` (with sample
`d1`) when no budget limit interferes: one value per inner index `j ≠ i`,
in inner iteration order. -/
def rowSims (sim : α → α → ℚ) (i : ℕ) (d1 : α) (js : List (ℕ × α)) : List ℚ :=
  js.filterMap fun q => if i ≠ q.1 then some (sim d1 q.2) else none

/-- All ordered off-diagonal pair similarities in the loop's lexicographic
order: for each `i` in iteration order, for each `j` in iteration order,
skipping `i = j`. -/
def allPairSims (loader : List α) (sim : α → α → ℚ) : List ℚ :=
  loader.enum.flatMap fun p => rowSims sim p.1 p.2 loader.enum

noncomputable section

/-- IEEE-754-style scalar for the volumetric preprocessing path: a float is
NaN, an infinity, or a finite real.  `torch`/`numpy` produce NaN (with a
warning, not an exception) for the mean/std of an empty or singleton
selection, and these NaNs propagate through arithmetic. -/
inductive F where
  | nan : F
  | pinf : F
  | ninf : F
  | val : ℝ → F

/-- IEEE-style subtraction on embedded floats.  (Only `val - val`,
`val - nan` and `nan`-propagation cases are reachable in this file.) -/
def fsub : F → F → F
  | F.nan, _ => F.nan
  | F.pinf, F.nan => F.nan
  | F.pinf, F.pinf => F.nan
  | F.pinf, _ => F.pinf
  | F.ninf, F.nan => F.nan
  | F.ninf, F.ninf => F.nan
  | F.ninf, _ => F.ninf
  | F.val _, F.nan => F.nan
  | F.val _, F.pinf => F.ninf
  | F.val _, F.ninf => F.pinf
  | F.val x, F.val y => F.val (x - y)

/-- IEEE-style division on embedded floats.  `0 / 0` is NaN and a nonzero
finite value divided by zero is a signed infinity (exact reals carry no
signed zero, so the sign of `x` decides). -/
def fdiv : F → F → F
  | F.nan, _ => F.nan
  | F.pinf, F.nan => F.nan
  | F.pinf, F.pinf => F.nan
  | F.pinf, F.ninf => F.nan
  | F.pinf, F.val y => if 0 ≤ y then F.pinf else F.ninf
  | F.ninf, F.nan => F.nan
  | F.ninf, F.pinf => F.nan
  | F.ninf, F.ninf => F.nan
  | F.ninf, F.val y => if 0 ≤ y then F.ninf else F.pinf
  | F.val _, F.nan => F.nan
  | F.val _, F.pinf => F.val 0
  | F.val _, F.ninf => F.val 0
  | F.val x, F.val y =>
    if y = 0 then (if x = 0 then F.nan else if 0 < x then F.pinf else F.ninf)
    else F.val (x / y)

/-- Arithmetic mean of a list of reals (`sum / length`). -/
def listMean (l : List ℝ) : ℝ := l.sum / l.length

/-- Unbiased sample variance (Bessel-corrected, the default of
`torch.Tensor.std`): `Σ (x - mean)² / (n - 1)`. -/
def uVar (l : List ℝ) : ℝ :=
  (l.map fun x => (x - listMean l) ^ 2).sum / ((l.length : ℝ) - 1)

/-- `pixels.mean()`: NaN on an empty selection, else the arithmetic mean. -/
def fmean (l : List ℝ) : F :=
  if l.length = 0 then F.nan else F.val (listMean l)

/-- `pixels.std()` (torch default, Bessel correction): NaN when the
selection has fewer than two elements (the corrected variance is `0 / 0`),
else the square root of the unbiased variance. -/
def fstd (l : List ℝ) : F :=
  if l.length ≤ 1 then F.nan else F.val (Real.sqrt (uVar l))

/-- `__itensity_normalize_one_volume__` (`fid.py` lines 34–52).  The volume
is flattened to a list of voxel values; `rand` gives the per-index draws of
`np.random.normal(0, 1, size=volume.shape)`.  `pixels = volume[volume > 0]`,
`mean = pixels.mean()`, `std = pixels.std()`, `out = (volume - mean) / std`,
and finally `out[volume == 0] = out_random[volume == 0]` — expressed
pointwise: a voxel that is exactly `0` gets its random draw, every other
voxel gets its normalized value.  No exception is raised on any input. -/
def itensity_normalize (volume : List ℝ) (rand : ℕ → ℝ) : List F :=
  let pixels := volume.filter fun x => 0 < x
  let mean := fmean pixels
  let std := fstd pixels
  volume.enum.map fun p =>
    if p.2 = 0 then F.val (rand p.1) else fdiv (fsub (F.val p.2) mean) std

/-- The normalized values at foreground positions (voxels whose original
value is strictly positive), in position order. -/
def normalizedForeground (volume : List ℝ) (rand : ℕ → ℝ) : List F :=
  ((volume.zip (itensity_normalize volume rand)).filter fun p =>
    0 < p.1).map Prod.snd

end

/-- Little-endian decimal digits of `n`, with explicit fuel so that the
recursion is structural (evaluation by `decide`/`rfl` works). -/
def digitsRevAux : ℕ → ℕ → List ℕ
  | 0, _ => []
  | fuel + 1, n => if n = 0 then [] else n % 10 :: digitsRevAux fuel (n / 10)

/-- Decimal value of a little-endian digit list; left inverse of
`digitsRevAux`, used to prove the decimal rendering injective. -/
def unDigits : List ℕ → ℕ
  | [] => 0
  | d :: ds => d + 10 * unDigits ds

/-- Decimal rendering of a natural number, exactly as Python's f-string
`{i}` renders an `int`. -/
def natDecimal (n : ℕ) : List Char :=
  if n = 0 then ['0'] else ((digitsRevAux n n).map Nat.digitChar).reverse

/-- The record file name `f"feat_{i}.npz"` used by both feature-extraction
loops (`fid.py` lines 55 and 102). -/
def featFileName (i : ℕ) : String :=
  "feat_" ++ String.mk (natDecimal i) ++ ".npz"

/-- One feature record as written by
`np.savez(save_path, feat=feat[0]..., age=age, sex=sex)` (`fid.py` lines 65
and 111): the embedding vector plus the two metadata scalars.  `φ`
abstracts the embedding-vector type. -/
structure FeatRecord (φ : Type) where
  feat : φ
  age : ℝ
  sex : ℝ

/-- State of an extraction run over a destination directory: the directory
contents (a partial map from file name to record), the number of
feature-extractor invocations performed, and the ordered log of record
writes (`np.savez` calls). -/
structure ExtractState (β : Type) where
  dir : String → Option β
  extractor_calls : ℕ
  writes : List (String × β)

/-- One iteration of the extraction loop (`fid.py` lines 54–65 / 98–111):
`save_path = os.path.join(dest_dir, f"feat_{i}.npz")`; if `skip_existing`
and the path exists, `continue` without touching the sample; otherwise run
preprocessing plus the feature extractor (`mk`, exactly one extractor call,
counted in `extractor_calls`) and write the record at `save_path`. -/
def extract_step (skip_existing : Bool) (mk : α → β)
    (st : ExtractState β) (p : ℕ × α) : ExtractState β :=
  let save_path := featFileName p.1
  if skip_existing && (st.dir save_path).isSome then st
  else
    { dir := fun q => if q = save_path then some (mk p.2) else st.dir q,
      extractor_calls := st.extractor_calls + 1,
      writes := st.writes ++ [(save_path, mk p.2)] }

/-- The `for i, data in enumerate(loader)` extraction loop shared by
`_extract_medicalnet_features_to_dir` and
`_extract_imagenet_features_to_dir` (`fid.py` lines 54–65 and 98–111),
started on directory contents `dir0`.  (In the imagenet variant the pure
central-slice computation happens textually before the skip test, but it
has no observable effect, so both variants are instances of this loop with
their preprocessing folded into `mk`.) -/
def extract_features_to_dir (loader : List α) (dir0 : String → Option β)
    (mk : α → β) (skip_existing : Bool) : ExtractState β :=
  loader.enum.foldl (extract_step skip_existing mk) ⟨dir0, 0, []⟩

/-- One volumetric sample as yielded by the loader: flattened voxel data
plus the `age`/`sex` metadata, together with the per-index standard-normal
draws that `np.random.normal` produces for this sample inside the
normalization. -/
structure VolSample where
  image : List ℝ
  rand : ℕ → ℝ
  age : ℝ
  sex : ℝ

/-- `_extract_medicalnet_features_to_dir` (`fid.py` lines 31–65): each
non-skipped sample is intensity-normalized, passed through the feature
extractor, and written as `feat_{i}.npz` together with its `age`/`sex`
metadata. -/
noncomputable def extract_medicalnet_features_to_dir {φ : Type}
    (loader : List VolSample) (dir0 : String → Option (FeatRecord φ))
    (feature_extractor : List F → φ) (skip_existing : Bool) :
    ExtractState (FeatRecord φ) :=
  extract_features_to_dir loader dir0
    (fun data =>
      { feat := feature_extractor (itensity_normalize data.image data.rand),
        age := data.age, sex := data.sex })
    skip_existing

/-- Cache-integrity errors of the Feature Collection Loader (spec §7). -/
inductive CacheIntegrityError where
  | missingRecord (index : ℕ) : CacheIntegrityError
deriving DecidableEq

/-- Modelled from the spec: `create_dataloader_from_dir`
(`stai_utils.evaluations.util`, a module of this repository that is not
included under `src/`) re-reads a cache directory into the ordered record
collection.  Spec §4.4: read the records sorted by `source_index` over the
contiguous range `[0, count)`, stack them in that order, and fail with a
`MissingRecord` error when an expected index is absent. -/
def load_cache (dir : String → Option β) :
    ℕ → Except CacheIntegrityError (List β)
  | 0 => .ok []
  | n + 1 =>
    match load_cache dir n, dir (featFileName n) with
    | .error e, _ => .error e
    | .ok recs, some r => .ok (recs ++ [r])
    | .ok _, none => .error (.missingRecord n)

/-- The pairing loop of `evaluate_fid_medicalnet3d` /
`evaluate_fid_imagenet2d` (`fid.py` lines 137–141 and 168–172):
`for real, fake in zip(real_feat_loader, fake_feat_loader)` appends
`real["feat"]` and `fake["feat"]` to the two collections that are then
stacked and handed to the FID computation.  Python's `zip` stops at the
shorter of the two iterables and raises nothing. -/
def evaluate_fid_pairing {φ : Type}
    (real_feat_loader fake_feat_loader : List (FeatRecord φ)) :
    List φ × List φ :=
  ((real_feat_loader.zip fake_feat_loader).map fun p => p.1.feat,
   (real_feat_loader.zip fake_feat_loader).map fun p => p.2.feat)

/-- Per-column empirical mean of a feature matrix given as a list of rows. -/
def colMean {d : ℕ} (A : List (Fin d → ℚ)) : Fin d → ℚ :=
  fun j => (A.map fun r => r j).sum / (A.length : ℚ)

/-- Per-column empirical covariance matrix of a feature matrix given as a
list of rows (Bessel-corrected; the normalization constant is irrelevant to
every theorem below). -/
def covMatrix {d : ℕ} (A : List (Fin d → ℚ)) : Matrix (Fin d) (Fin d) ℚ :=
  Matrix.of fun j k =>
    (A.map fun r => (r j - colMean A j) * (r k - colMean A k)).sum /
      ((A.length : ℚ) - 1)

/-- Modelled from the spec: the Distributional Distance Estimator.  The
implementation called at `fid.py` line 142 is `FIDMetric` from the external
`generative.metrics` package and is not part of this repository; spec §4.5
gives the formula `||mu_real - mu_fake||² + trace(C_real + C_fake -
2·sqrtm(C_real @ C_fake))`, a function of the two per-column means and
covariances only.  The principal matrix square root has no closed rational
form, so it is passed as a parameter `sqrtm`; the theorems below hold for
every choice of it. -/
def frechet_distance {d : ℕ}
    (sqrtm : Matrix (Fin d) (Fin d) ℚ → Matrix (Fin d) (Fin d) ℚ)
    (real fake : List (Fin d → ℚ)) : ℚ :=
  (∑ j, (colMean real j - colMean fake j) ^ 2) +
    Matrix.trace (covMatrix real + covMatrix fake -
      2 • sqrtm (covMatrix real * covMatrix fake))

/-- The channel-replication step of `_get_imagenet_features` (`fid.py`
lines 82–84): `if image.shape[1]: image = image.repeat(1, 3, 1, 1)`.  The
image is represented by its list of channels; `repeat(1, 3, 1, 1)` tiles
the channel list three times.  The test is the *truthiness* of the channel
count (`shape[1] != 0`), not `shape[1] == 1` as the comment above it says. -/
def repeat_channels_step (channels : List γ) : List γ :=
  if channels.length ≠ 0 then channels ++ channels ++ channels else channels

theorem msssimInner_spec (sim : α → α → ℚ) (N : ℕ) (i : ℕ) (d1 : α) :
    ∀ (js : List (ℕ × α)) (t : ℚ) (c : ℕ),
      msssimInner sim N i d1 js (t, c) =
        (t + ((rowSims sim i d1 js).take (N - c)).sum,
         c + min (N - c) (rowSims sim i d1 js).length) := by
  intro js
  induction js with
  | nil => intro t c; simp [msssimInner, rowSims]
  | cons q rest ih =>
    intro t c
    obtain ⟨j, d2⟩ := q
    by_cases hc : N ≤ c
    · have h0 : N - c = 0 := by omega
      simp [msssimInner, hc, h0]
    · have hNc : N - c = (N - (c + 1)) + 1 := by omega
      by_cases hij : i ≠ j
      · have hstep : msssimInner sim N i d1 ((j, d2) :: rest) (t, c) =
            msssimInner sim N i d1 rest (t + sim d1 d2, c + 1) := by
          simp [msssimInner, hc, hij]
        have hrow : rowSims sim i d1 ((j, d2) :: rest) =
            sim d1 d2 :: rowSims sim i d1 rest := by
          simp [rowSims, hij]
        rw [hstep, ih, hrow, hNc]
        simp only [List.take_succ_cons, List.sum_cons, List.length_cons,
          Prod.mk.injEq]
        constructor
        · ring
        · omega
      · have hstep : msssimInner sim N i d1 ((j, d2) :: rest) (t, c) =
            msssimInner sim N i d1 rest (t, c) := by
          simp [msssimInner, hc, hij]
        have hrow : rowSims sim i d1 ((j, d2) :: rest) =
            rowSims sim i d1 rest := by
          simp [rowSims, hij]
        rw [hstep, ih, hrow]

theorem msssimOuter_spec (sim : α → α → ℚ) (N : ℕ) (loader : List α) :
    ∀ (rows : List (ℕ × α)) (t : ℚ) (c : ℕ),
      msssimOuter sim N loader rows (t, c) =
        (t + ((rows.flatMap fun p => rowSims sim p.1 p.2 loader.enum).take
            (N - c)).sum,
         c + min (N - c)
            (rows.flatMap fun p => rowSims sim p.1 p.2 loader.enum).length) := by
  intro rows
  induction rows with
  | nil => intro t c; simp [msssimOuter]
  | cons p rest ih =>
    intro t c
    obtain ⟨i, d1⟩ := p
    rw [msssimOuter, msssimInner_spec, ih]
    simp only [List.flatMap_cons, List.take_append_eq_append_take,
      List.sum_append, List.length_append, Prod.mk.injEq]
    constructor
    · have harith : N - (c + min (N - c) (rowSims sim i d1 loader.enum).length)
          = N - c - (rowSims sim i d1 loader.enum).length := by omega
      rw [harith]
      ring
    · omega

theorem rowSims_eq_map_filter (sim : α → α → ℚ) (i : ℕ) (d1 : α) :
    ∀ js : List (ℕ × α),
      rowSims sim i d1 js =
        (js.filter fun q => i ≠ q.1).map fun q => sim d1 q.2 := by
  intro js
  induction js with
  | nil => simp [rowSims]
  | cons q rest ih =>
    by_cases hiq : i ≠ q.1
    · rw [rowSims,
        @List.filterMap_cons_some (ℕ × α) ℚ
          (fun q => if i ≠ q.1 then some (sim d1 q.2) else none) q rest
          (sim d1 q.2) (by simp [hiq]),
        List.filter_cons_of_pos (by simpa using hiq), List.map_cons]
      rw [rowSims] at ih
      rw [ih]
    · rw [rowSims, List.filterMap_cons_none (by rw [if_neg hiq]),
        List.filter_cons_of_neg (by simpa using hiq)]
      exact ih

theorem length_filter_ne_enumFrom (i : ℕ) :
    ∀ (l : List α) (k : ℕ),
      ((List.enumFrom k l).filter fun q => i ≠ q.1).length =
        if k ≤ i ∧ i < k + l.length then l.length - 1 else l.length := by
  intro l
  induction l with
  | nil => intro k; simp
  | cons a l ih =>
    intro k
    rw [List.enumFrom_cons]
    by_cases hik : i = k
    · rw [List.filter_cons_of_neg (by simp [hik]), ih (k + 1)]
      subst hik
      simp only [List.length_cons]
      split <;> split <;> omega
    · rw [List.filter_cons_of_pos (by simpa using hik)]
      simp only [List.length_cons]
      rw [ih (k + 1)]
      split <;> split <;> omega

theorem allPairSims_length (loader : List α) (sim : α → α → ℚ) :
    (allPairSims loader sim).length =
      loader.length * (loader.length - 1) := by
  rw [allPairSims, List.length_flatMap]
  have hcongr : ∀ p ∈ loader.enum,
      (List.length ∘ fun p : ℕ × α => rowSims sim p.1 p.2 loader.enum) p =
        (fun _ : ℕ × α => loader.length - 1) p := by
    intro p hp
    obtain ⟨i, d1⟩ := p
    have hmem := List.mem_enumFrom hp
    simp only [Function.comp_apply]
    rw [rowSims_eq_map_filter, List.length_map]
    have := length_filter_ne_enumFrom i loader 0
    rw [show loader.enum = List.enumFrom 0 loader from rfl, this]
    have hi : 0 ≤ i ∧ i < 0 + loader.length := by omega
    rw [if_pos hi]
  rw [List.map_congr_left hcongr, List.map_const', List.sum_replicate,
    List.enum_length, smul_eq_mul]

/-- **C3 (counterexample).**  Called with `sample_budget = 0` on a loader of
two samples, `compute_pairwise_msssim` neither returns immediately nor
raises a `DegenerateInputError` (no such error exists in the repository):
the inner loop breaks at once on every outer iteration, `count` stays `0`,
and the final unguarded `tot_metric / count` raises `ZeroDivisionError`. -/
theorem compute_pairwise_msssim_budget_zero_divides :
    compute_pairwise_msssim [(3 : ℚ), 4] (fun a b => a * b) 0 =
      .error .zeroDivisionError := by
  rfl

/-- **C3 (amended).**  `compute_pairwise_msssim` performs the final division
`tot_metric / count` unguarded: whenever `sample_budget = 0` or the loader
yields fewer than 2 samples, `count` is `0` at the end and the call fails
with `ZeroDivisionError` — it neither returns early nor raises a
`DegenerateInputError`. -/
theorem compute_pairwise_msssim_zero_division (loader : List α)
    (sim : α → α → ℚ) (N : ℕ) (h : N = 0 ∨ loader.length ≤ 1) :
    compute_pairwise_msssim loader sim N = .error .zeroDivisionError := by
  rw [compute_pairwise_msssim]
  have houter := msssimOuter_spec sim N loader loader.enum 0 0
  have hlen : (loader.enum.flatMap fun p =>
      rowSims sim p.1 p.2 loader.enum).length =
      loader.length * (loader.length - 1) := allPairSims_length loader sim
  rcases h with h0 | h1
  · subst h0
    simp only [houter, Nat.zero_sub, List.take_zero, List.sum_nil, add_zero,
      Nat.zero_min, Nat.zero_add]
    rfl
  · have hz : loader.length * (loader.length - 1) = 0 := by
      interval_cases h : loader.length <;> simp
    simp only [houter, Nat.sub_zero, Nat.zero_add]
    rw [hlen] at houter ⊢
    simp [hz]

/-- **C3 (witness).** -/
theorem compute_pairwise_msssim_zero_division_witness :
    compute_pairwise_msssim [(7 : ℚ)] (fun a b => a + b) 1000 =
      .error .zeroDivisionError :=
  compute_pairwise_msssim_zero_division [(7 : ℚ)] (fun a b => a + b) 1000
    (by decide)

/-- **C6.**  For every loader of `n ≥ 2` samples and every budget `N ≥ 1`,
`compute_pairwise_msssim` visits the ordered off-diagonal pairs in
lexicographic order (outer index major, inner index minor, skipping
`i = j`), stops accumulating as soon as `count ≥ N`, and returns the
arithmetic mean of exactly `min N (n * (n - 1))` pair similarities — the
first that many pairs in that order. -/
theorem compute_pairwise_msssim_pair_order (loader : List α)
    (sim : α → α → ℚ) (N : ℕ) (hn : 2 ≤ loader.length) (hN : 1 ≤ N) :
    compute_pairwise_msssim loader sim N =
      .ok (((allPairSims loader sim).take
          (min N (loader.length * (loader.length - 1)))).sum /
        ((min N (loader.length * (loader.length - 1)) : ℕ) : ℚ)) := by
  have houter := msssimOuter_spec sim N loader loader.enum 0 0
  have hlen := allPairSims_length loader sim
  have hall : (loader.enum.flatMap fun p => rowSims sim p.1 p.2 loader.enum)
      = allPairSims loader sim := rfl
  rw [hall] at houter
  have hmin1 : 1 ≤ min N (loader.length * (loader.length - 1)) := by
    have h2 : 2 ≤ loader.length * (loader.length - 1) := by
      have h1 : 1 ≤ loader.length - 1 := by omega
      calc 2 = 2 * 1 := rfl
        _ ≤ loader.length * (loader.length - 1) := Nat.mul_le_mul hn h1
    omega
  simp only [compute_pairwise_msssim, houter, hlen, Nat.sub_zero, zero_add,
    Nat.zero_add]
  rw [if_neg (by omega)]
  have htake : (allPairSims loader sim).take N =
      (allPairSims loader sim).take
        (min N (loader.length * (loader.length - 1))) := by
    rw [List.take_eq_take, hlen]
    omega
  rw [htake]

/-- **C6 (witness).** -/
theorem compute_pairwise_msssim_pair_order_witness :
    compute_pairwise_msssim [(0 : ℚ), 1] (fun a b => 10 * a + b) 3 =
      .ok (((allPairSims [(0 : ℚ), 1] (fun a b => 10 * a + b)).take
          (min 3 ([(0 : ℚ), 1].length * ([(0 : ℚ), 1].length - 1)))).sum /
        ((min 3 ([(0 : ℚ), 1].length * ([(0 : ℚ), 1].length - 1)) : ℕ) : ℚ)) :=
  compute_pairwise_msssim_pair_order [(0 : ℚ), 1] (fun a b => 10 * a + b) 3
    (by decide) (by decide)

/-- **C1 (counterexample).**  On the entirely zero-or-negative volume
`[0, -1]` the volumetric preprocessing does not raise any error (the
repository defines no `DegenerateInputError`): the foreground selection is
empty, `mean` and `std` are NaN, the strictly negative voxel's output is
NaN (which propagates into feature extraction), and the zero voxel is
silently replaced by its random draw. -/
theorem itensity_normalize_all_nonpositive_counterexample :
    itensity_normalize [0, -1] (fun _ => 5) = [F.val 5, F.nan] := by
  have hpix : (([0, -1] : List ℝ).filter fun x => 0 < x) = [] := by
    rw [List.filter_eq_nil_iff]
    intro a ha
    simp only [List.mem_cons, List.mem_singleton] at ha
    rcases ha with rfl | rfl | h
    · norm_num
    · norm_num
    · simp at h
  simp only [itensity_normalize, hpix, fmean, fstd]
  norm_num [List.enum, List.enumFrom, fsub, fdiv]

/-- **C1 (amended).**  For every entirely zero-or-negative volume, the
volumetric preprocessing raises nothing: the foreground is empty, so mean
and std are NaN; every voxel that is exactly `0` is replaced by its
standard-normal draw and every strictly negative voxel's output is NaN,
which propagates into feature extraction. -/
theorem itensity_normalize_all_nonpositive (volume : List ℝ) (rand : ℕ → ℝ)
    (h : ∀ x ∈ volume, x ≤ 0) :
    itensity_normalize volume rand =
      volume.enum.map fun p => if p.2 = 0 then F.val (rand p.1) else F.nan := by
  have hpix : (volume.filter fun x => 0 < x) = [] := by
    rw [List.filter_eq_nil_iff]
    intro a ha
    simpa using not_lt.mpr (h a ha)
  simp only [itensity_normalize, hpix, fmean, fstd]
  apply List.map_congr_left
  intro p _
  by_cases h0 : p.2 = 0
  · simp [h0]
  · simp [h0, fsub, fdiv]

/-- **C1 (witness).** -/
theorem itensity_normalize_all_nonpositive_witness :
    itensity_normalize [0, -1] (fun _ => 7) =
      ([(0 : ℝ), -1].enum.map fun p =>
        if p.2 = 0 then F.val 7 else F.nan) :=
  itensity_normalize_all_nonpositive [0, -1] (fun _ => 7) (by
    intro x hx
    simp only [List.mem_cons, List.mem_singleton] at hx
    rcases hx with rfl | rfl | h
    · norm_num
    · norm_num
    · simp at h)

theorem sum_map_sub_const (l : List ℝ) (c : ℝ) :
    (l.map fun x => x - c).sum = l.sum - l.length * c := by
  induction l with
  | nil => simp
  | cons a l ih =>
    simp only [List.map_cons, List.sum_cons, List.length_cons, ih]
    push_cast
    ring

theorem sum_map_div_const (l : List ℝ) (f : ℝ → ℝ) (c : ℝ) :
    (l.map fun x => f x / c).sum = (l.map f).sum / c := by
  induction l with
  | nil => simp
  | cons a l ih =>
    simp only [List.map_cons, List.sum_cons, ih, add_div]

theorem listMean_center_div (l : List ℝ) (c : ℝ) (hl : l ≠ []) :
    listMean (l.map fun x => (x - listMean l) / c) = 0 := by
  have hlen : (l.length : ℝ) ≠ 0 := by
    simpa using List.length_pos.mpr hl |>.ne'
  rw [listMean, List.length_map,
    sum_map_div_const l (fun x => x - listMean l) c, sum_map_sub_const,
    listMean]
  rw [mul_div_assoc', mul_comm, mul_div_assoc, div_self hlen, mul_one,
    sub_self, zero_div, zero_div]

theorem uVar_center_div (l : List ℝ) (c : ℝ) (hl2 : 2 ≤ l.length)
    (hc2 : c ^ 2 = uVar l) (hcne : c ≠ 0) :
    uVar (l.map fun x => (x - listMean l) / c) = 1 := by
  have hl : l ≠ [] := by intro h; rw [h] at hl2; simp at hl2
  have hmean0 := listMean_center_div l c hl
  have hn1 : ((l.length : ℝ) - 1) ≠ 0 := by
    have : (2 : ℝ) ≤ l.length := by exact_mod_cast hl2
    linarith
  have hc2ne : c ^ 2 ≠ 0 := pow_ne_zero 2 hcne
  rw [uVar, hmean0, List.length_map]
  have hmaps : ((l.map fun x => (x - listMean l) / c).map fun x =>
      (x - 0) ^ 2).sum = (l.map fun x => (x - listMean l) ^ 2).sum / c ^ 2 := by
    rw [List.map_map]
    have : ((fun x => (x - 0) ^ 2) ∘ fun x => (x - listMean l) / c) =
        fun x => ((x - listMean l) ^ 2) / c ^ 2 := by
      funext x
      simp [div_pow]
    rw [this, sum_map_div_const]
  rw [hmaps]
  have hS : (l.map fun x => (x - listMean l) ^ 2).sum =
      c ^ 2 * ((l.length : ℝ) - 1) := by
    rw [hc2, uVar]
    field_simp
  rw [hS]
  field_simp

theorem uVar_pos (l : List ℝ) (hl2 : 2 ≤ l.length)
    (hne : ∃ a ∈ l, ∃ b ∈ l, a ≠ b) : 0 < uVar l := by
  obtain ⟨a, ha, b, hb, hab⟩ := hne
  have hx : ∃ x ∈ l, x ≠ listMean l := by
    by_cases h : a = listMean l
    · exact ⟨b, hb, fun hbm => hab (h.trans hbm.symm)⟩
    · exact ⟨a, ha, h⟩
  obtain ⟨x, hxl, hxm⟩ := hx
  rw [uVar]
  apply div_pos
  · have hmem : (x - listMean l) ^ 2 ∈ l.map fun y => (y - listMean l) ^ 2 :=
      List.mem_map_of_mem _ hxl
    have hxne : x - listMean l ≠ 0 := sub_ne_zero.mpr hxm
    have hpos : 0 < (x - listMean l) ^ 2 :=
      lt_of_le_of_ne (sq_nonneg _) (Ne.symm (pow_ne_zero 2 hxne))
    calc 0 < (x - listMean l) ^ 2 := hpos
      _ ≤ (l.map fun y => (y - listMean l) ^ 2).sum := by
        apply List.single_le_sum _ _ hmem
        intro y hy
        obtain ⟨z, _, rfl⟩ := List.mem_map.mp hy
        exact sq_nonneg _
  · have : (2 : ℝ) ≤ l.length := by exact_mod_cast hl2
    linarith

theorem zip_enumFrom_filter_map {β : Type} (g : ℕ × ℝ → β) (hfun : ℝ → β)
    (hg : ∀ i x, 0 < x → g (i, x) = hfun x) :
    ∀ (l : List ℝ) (k : ℕ),
      ((l.zip ((List.enumFrom k l).map g)).filter fun p => 0 < p.1).map
          Prod.snd
        = (l.filter fun x => 0 < x).map hfun := by
  intro l
  induction l with
  | nil => intro k; simp
  | cons x xs ih =>
    intro k
    rw [List.enumFrom_cons, List.map_cons, List.zip_cons_cons]
    by_cases hx : 0 < x
    · rw [List.filter_cons_of_pos (by simpa using hx),
        List.filter_cons_of_pos (by simpa using hx), List.map_cons,
        List.map_cons, hg k x hx, ih (k + 1)]
    · rw [List.filter_cons_of_neg (by simpa using hx),
        List.filter_cons_of_neg (by simpa using hx)]
      exact ih (k + 1)

/-- **C5 (amended).**  For every volume whose foreground (the strictly
positive voxels) contains at least two voxels that are not all equal, the
preprocessing computes mean and (unbiased) std over the strictly positive
voxels only, maps every voxel to `(x - mean) / std`, replaces exactly the
originally-zero positions with standard-normal draws (strictly negative
voxels keep their normalized value), and the normalized foreground values
are finite with exactly zero mean and unit unbiased variance.  (For a
singleton or constant foreground, `std` is NaN or `0` and the normalized
foreground values are NaN instead — see the counterexample.) -/
theorem itensity_normalize_foreground_spec (volume : List ℝ) (rand : ℕ → ℝ)
    (h2 : 2 ≤ (volume.filter fun x => 0 < x).length)
    (hne : ∃ a ∈ volume.filter fun x => 0 < x,
      ∃ b ∈ volume.filter fun x => 0 < x, a ≠ b) :
    normalizedForeground volume rand =
        (volume.filter fun x => 0 < x).map (fun x =>
          F.val ((x - listMean (volume.filter fun x => 0 < x)) /
            Real.sqrt (uVar (volume.filter fun x => 0 < x)))) ∧
      listMean ((volume.filter fun x => 0 < x).map fun x =>
        (x - listMean (volume.filter fun x => 0 < x)) /
          Real.sqrt (uVar (volume.filter fun x => 0 < x))) = 0 ∧
      uVar ((volume.filter fun x => 0 < x).map fun x =>
        (x - listMean (volume.filter fun x => 0 < x)) /
          Real.sqrt (uVar (volume.filter fun x => 0 < x))) = 1 := by
  set pixels := volume.filter fun x => 0 < x with hpixdef
  set m := listMean pixels with hmdef
  set s := Real.sqrt (uVar pixels) with hsdef
  have hvar : 0 < uVar pixels := uVar_pos pixels h2 hne
  have hs : 0 < s := Real.sqrt_pos.mpr hvar
  have hs2 : s ^ 2 = uVar pixels := Real.sq_sqrt hvar.le
  have hsne : s ≠ 0 := ne_of_gt hs
  have hpne : pixels ≠ [] := by
    intro h
    rw [h] at h2
    simp at h2
  refine ⟨?_, listMean_center_div pixels s hpne,
    uVar_center_div pixels s h2 hs2 hsne⟩
  have hmean : fmean pixels = F.val m := by
    rw [fmean, if_neg (by simp [List.length_eq_zero]; exact hpne)]
  have hstd : fstd pixels = F.val s := by
    have h2' : 2 ≤ pixels.length := h2
    rw [fstd, if_neg (by omega)]
  rw [normalizedForeground]
  simp only [itensity_normalize]
  rw [show volume.enum = List.enumFrom 0 volume from rfl]
  exact zip_enumFrom_filter_map _ _
    (fun i x hx => by
      simp only
      rw [if_neg (ne_of_gt hx)]
      rw [show (volume.filter fun y => 0 < y) = pixels from rfl, hmean, hstd]
      simp only [fsub, fdiv]
      rw [if_neg hsne]) volume 0

/-- **C5 (counterexample).**  The volume `[1, 1]` has a non-empty
foreground, but its foreground values are all equal, so `std = 0`, the
normalization computes `0 / 0 = NaN` for every foreground voxel, and the
normalized foreground values are `[NaN, NaN]` — not a list of finite reals
with zero mean and unit variance as the claim requires. -/
theorem itensity_normalize_constant_foreground_nan :
    ¬ ∃ ys : List ℝ,
      normalizedForeground [1, 1] (fun _ => 0) = ys.map F.val ∧
        listMean ys = 0 ∧ uVar ys = 1 := by
  have hpix : (([1, 1] : List ℝ).filter fun x => 0 < x) = [1, 1] := by
    rw [List.filter_eq_self]
    intro a ha
    simp only [List.mem_cons, List.mem_singleton] at ha
    rcases ha with rfl | rfl | h
    · norm_num
    · norm_num
    · simp at h
  have hmean : listMean [(1 : ℝ), 1] = 1 := by
    norm_num [listMean]
  have hvarz : uVar [(1 : ℝ), 1] = 0 := by
    norm_num [uVar, hmean]
  have hfm : fmean [(1 : ℝ), 1] = F.val 1 := by
    rw [fmean, if_neg (by norm_num), hmean]
  have hfs : fstd [(1 : ℝ), 1] = F.val 0 := by
    rw [fstd, if_neg (by norm_num), hvarz, Real.sqrt_zero]
  have hit : itensity_normalize [1, 1] (fun _ => 0) = [F.nan, F.nan] := by
    simp only [itensity_normalize, hpix, hfm, hfs]
    norm_num [List.enum, List.enumFrom, fsub, fdiv]
  have hval : normalizedForeground [1, 1] (fun _ => 0) = [F.nan, F.nan] := by
    rw [normalizedForeground, hit]
    norm_num [List.zip, List.zipWith]
  rintro ⟨ys, hys, -, -⟩
  rw [hval] at hys
  match ys, hys with
  | [], h => simp at h
  | y :: ys, h => simp at h

/-- **C5 (witness).** -/
theorem itensity_normalize_foreground_spec_witness :
    normalizedForeground [1, 2, 3] (fun _ => 0) =
        (([1, 2, 3] : List ℝ).filter fun x => 0 < x).map (fun x =>
          F.val ((x - listMean (([1, 2, 3] : List ℝ).filter fun x => 0 < x)) /
            Real.sqrt (uVar (([1, 2, 3] : List ℝ).filter fun x => 0 < x)))) ∧
      listMean ((([1, 2, 3] : List ℝ).filter fun x => 0 < x).map fun x =>
        (x - listMean (([1, 2, 3] : List ℝ).filter fun x => 0 < x)) /
          Real.sqrt (uVar (([1, 2, 3] : List ℝ).filter fun x => 0 < x))) = 0 ∧
      uVar ((([1, 2, 3] : List ℝ).filter fun x => 0 < x).map fun x =>
        (x - listMean (([1, 2, 3] : List ℝ).filter fun x => 0 < x)) /
          Real.sqrt (uVar (([1, 2, 3] : List ℝ).filter fun x => 0 < x))) = 1 := by
  have hpix : (([1, 2, 3] : List ℝ).filter fun x => 0 < x) = [1, 2, 3] := by
    rw [List.filter_eq_self]
    intro a ha
    simp only [List.mem_cons, List.mem_singleton] at ha
    rcases ha with rfl | rfl | rfl | h
    · norm_num
    · norm_num
    · norm_num
    · simp at h
  exact itensity_normalize_foreground_spec [1, 2, 3] (fun _ => 0)
    (by rw [hpix]; norm_num)
    (by
      refine ⟨1, ?_, 2, ?_, by norm_num⟩
      · rw [hpix]; norm_num
      · rw [hpix]; norm_num)

/-- **C2 (code evaluated at the failing input).**  The replication step at
`fid.py` lines 82–84 tests `if image.shape[1]:` — true for *any* nonzero
channel count — so an image that already has three channels is tiled to
nine channels, contradicting the claim (and the code's own comment) that
replication happens only for single-channel inputs.  A single-channel
image is (correctly) tripled. -/
theorem repeat_channels_step_truthiness_bug :
    repeat_channels_step [(0 : ℚ), 1, 2] = [0, 1, 2, 0, 1, 2, 0, 1, 2] ∧
      (repeat_channels_step [(0 : ℚ), 1, 2]).length = 9 ∧
      repeat_channels_step [(0 : ℚ)] = [0, 0, 0] := by
  refine ⟨rfl, rfl, rfl⟩

theorem unDigits_digitsRevAux :
    ∀ fuel n : ℕ, n ≤ fuel → unDigits (digitsRevAux fuel n) = n := by
  intro fuel
  induction fuel with
  | zero =>
    intro n hn
    interval_cases n
    simp [digitsRevAux, unDigits]
  | succ fuel ih =>
    intro n hn
    rw [digitsRevAux]
    by_cases h0 : n = 0
    · simp [h0, unDigits]
    · rw [if_neg h0, unDigits]
      have hdiv : n / 10 ≤ fuel := by
        have := Nat.div_lt_self (Nat.pos_of_ne_zero h0)
          (by norm_num : 1 < 10)
        omega
      rw [ih (n / 10) hdiv]
      omega

theorem digitsRevAux_lt_ten :
    ∀ fuel n : ℕ, ∀ d ∈ digitsRevAux fuel n, d < 10 := by
  intro fuel
  induction fuel with
  | zero => intro n d hd; simp [digitsRevAux] at hd
  | succ fuel ih =>
    intro n d hd
    rw [digitsRevAux] at hd
    by_cases h0 : n = 0
    · simp [h0] at hd
    · rw [if_neg h0] at hd
      rcases List.mem_cons.mp hd with rfl | h
      · exact Nat.mod_lt n (by norm_num)
      · exact ih (n / 10) d h

theorem digitChar_inj_lt :
    ∀ a, a < 10 → ∀ b, b < 10 → Nat.digitChar a = Nat.digitChar b →
      a = b := by
  decide

theorem map_digitChar_inj :
    ∀ l₁ l₂ : List ℕ, (∀ d ∈ l₁, d < 10) → (∀ d ∈ l₂, d < 10) →
      l₁.map Nat.digitChar = l₂.map Nat.digitChar → l₁ = l₂ := by
  intro l₁
  induction l₁ with
  | nil =>
    intro l₂ _ _ h
    cases l₂ with
    | nil => rfl
    | cons e l₂ => simp at h
  | cons d l₁ ih =>
    intro l₂ h1 h2 h
    cases l₂ with
    | nil => simp at h
    | cons e l₂ =>
      simp only [List.map_cons, List.cons.injEq] at h
      have hd := digitChar_inj_lt d (h1 d (by simp)) e (h2 e (by simp)) h.1
      rw [hd,
        ih l₂ (fun x hx => h1 x (by simp [hx])) (fun x hx => h2 x (by simp [hx]))
          h.2]

theorem natDecimal_ne_zero_char (b : ℕ) (hb : b ≠ 0) :
    natDecimal b ≠ ['0'] := by
  intro h
  rw [natDecimal, if_neg hb] at h
  have h' : (digitsRevAux b b).map Nat.digitChar = ['0'] := by
    have := congrArg List.reverse h
    simpa using this
  have h0 : digitsRevAux b b = [0] := by
    apply map_digitChar_inj _ _ (digitsRevAux_lt_ten b b)
      (by intro d hd; simp at hd; omega)
    rw [h']
    rfl
  have hun := unDigits_digitsRevAux b b le_rfl
  rw [h0] at hun
  simp [unDigits] at hun
  exact hb hun.symm

theorem natDecimal_injective : ∀ a b : ℕ, natDecimal a = natDecimal b → a = b := by
  intro a b h
  by_cases ha : a = 0 <;> by_cases hb : b = 0
  · rw [ha, hb]
  · exfalso
    apply natDecimal_ne_zero_char b hb
    rw [← h, natDecimal, if_pos ha]
  · exfalso
    apply natDecimal_ne_zero_char a ha
    rw [h, natDecimal, if_pos hb]
  · rw [natDecimal, if_neg ha, natDecimal, if_neg hb] at h
    have h' := List.reverse_injective h
    have h'' := map_digitChar_inj _ _ (digitsRevAux_lt_ten a a)
      (digitsRevAux_lt_ten b b) h'
    have ha' := unDigits_digitsRevAux a a le_rfl
    have hb' := unDigits_digitsRevAux b b le_rfl
    rw [← ha', ← hb', h'']

theorem featFileName_injective : ∀ a b : ℕ, featFileName a = featFileName b → a = b := by
  intro a b h
  apply natDecimal_injective
  have hdata := congrArg String.data h
  simp only [featFileName, String.data_append] at hdata
  have h1 := List.append_cancel_right hdata
  exact List.append_cancel_left h1

theorem extract_foldl_skip_all (mk : α → β) :
    ∀ (l : List α) (k : ℕ) (st : ExtractState β),
      (∀ i, k ≤ i → i < k + l.length →
        (st.dir (featFileName i)).isSome = true) →
      (List.enumFrom k l).foldl (extract_step true mk) st = st := by
  intro l
  induction l with
  | nil => intro k st _; simp
  | cons a l ih =>
    intro k st h
    rw [List.enumFrom_cons, List.foldl_cons]
    have hk : (st.dir (featFileName k)).isSome = true :=
      h k le_rfl (by simp)
    have hstep : extract_step true mk st (k, a) = st := by
      simp [extract_step, hk]
    rw [hstep]
    exact ih (k + 1) st (fun i h1 h2 => h i (by omega) (by simp at h2 ⊢; omega))

/-- **C4.**  Re-running the extraction loop with `skip_existing = true` over
a directory that already has a record for every loader index performs zero
feature-extractor calls, writes nothing, and leaves the directory contents
identical. -/
theorem extract_skip_existing_complete_noop (loader : List α)
    (dir0 : String → Option β) (mk : α → β)
    (h : ∀ i, i < loader.length → (dir0 (featFileName i)).isSome = true) :
    extract_features_to_dir loader dir0 mk true = ⟨dir0, 0, []⟩ := by
  rw [extract_features_to_dir,
    show loader.enum = List.enumFrom 0 loader from rfl]
  exact extract_foldl_skip_all mk loader 0 ⟨dir0, 0, []⟩
    (fun i _ hi => h i (by omega))

/-- **C4 (witness).** -/
theorem extract_skip_existing_complete_noop_witness :
    extract_features_to_dir [(5 : ℚ)]
        (fun q => if q = featFileName 0 then some (9 : ℚ) else none) id true =
      ⟨(fun q => if q = featFileName 0 then some (9 : ℚ) else none), 0, []⟩ :=
  extract_skip_existing_complete_noop [(5 : ℚ)]
    (fun q => if q = featFileName 0 then some (9 : ℚ) else none) id
    (by decide)

theorem extract_foldl_spec (mk : α → β) (skip : Bool)
    (dir0 : String → Option β) :
    ∀ (l : List α) (k : ℕ) (st : ExtractState β),
      (∀ j, k ≤ j → st.dir (featFileName j) = dir0 (featFileName j)) →
      ((List.enumFrom k l).foldl (extract_step skip mk) st).writes =
          st.writes ++ (List.enumFrom k l).filterMap (fun p =>
            if skip && (dir0 (featFileName p.1)).isSome then none
            else some (featFileName p.1, mk p.2)) ∧
        (∀ p ∈ List.enumFrom k l,
          ((List.enumFrom k l).foldl (extract_step skip mk) st).dir
              (featFileName p.1) =
            if skip && (dir0 (featFileName p.1)).isSome then
              dir0 (featFileName p.1)
            else some (mk p.2)) ∧
        (∀ q, (∀ p ∈ List.enumFrom k l, q ≠ featFileName p.1) →
          ((List.enumFrom k l).foldl (extract_step skip mk) st).dir q =
            st.dir q) := by
  intro l
  induction l with
  | nil =>
    intro k st _
    refine ⟨by simp, by simp, fun q _ => rfl⟩
  | cons a l ih =>
    intro k st hagree
    rw [List.enumFrom_cons, List.foldl_cons]
    by_cases hsk : (skip && (st.dir (featFileName k)).isSome) = true
    · have hstep : extract_step skip mk st (k, a) = st := by
        simp only [extract_step]
        rw [if_pos hsk]
      rw [hstep]
      have hcond : (skip && (dir0 (featFileName k)).isSome) = true := by
        rw [← hagree k le_rfl]
        exact hsk
      obtain ⟨ihw, ihd, ihq⟩ := ih (k + 1) st (fun j hj => hagree j (by omega))
      refine ⟨?_, ?_, ?_⟩
      · rw [List.filterMap_cons_none (by simp [hcond]), ihw]
      · intro p hp
        rcases List.mem_cons.mp hp with rfl | hp'
        · rw [if_pos hcond, ihq (featFileName k) ?_, hagree k le_rfl]
          intro p' hp'
          obtain ⟨i, x⟩ := p'
          have hmem := List.mem_enumFrom hp'
          intro heq
          have hik := featFileName_injective _ _ heq
          omega
        · exact ihd p hp'
      · intro q hq
        exact ihq q (fun p hp => hq p (List.mem_cons_of_mem _ hp))
    · have hcond : (skip && (dir0 (featFileName k)).isSome) = false := by
        rw [← hagree k le_rfl]
        simpa using hsk
      have hstep : extract_step skip mk st (k, a) =
          { dir := fun q =>
              if q = featFileName k then some (mk a) else st.dir q,
            extractor_calls := st.extractor_calls + 1,
            writes := st.writes ++ [(featFileName k, mk a)] } := by
        simp only [extract_step]
        rw [if_neg hsk]
      rw [hstep]
      set st' : ExtractState β :=
        { dir := fun q =>
            if q = featFileName k then some (mk a) else st.dir q,
          extractor_calls := st.extractor_calls + 1,
          writes := st.writes ++ [(featFileName k, mk a)] } with hst'
      have hagree' : ∀ j, k + 1 ≤ j →
          st'.dir (featFileName j) = dir0 (featFileName j) := by
        intro j hj
        have hne : featFileName j ≠ featFileName k := by
          intro heq
          have := featFileName_injective _ _ heq
          omega
        simp only [hst']
        rw [if_neg hne]
        exact hagree j (by omega)
      obtain ⟨ihw, ihd, ihq⟩ := ih (k + 1) st' hagree'
      refine ⟨?_, ?_, ?_⟩
      · rw [ihw,
          @List.filterMap_cons_some (ℕ × α) (String × β)
            (fun p => if skip && (dir0 (featFileName p.1)).isSome then none
              else some (featFileName p.1, mk p.2))
            (k, a) (List.enumFrom (k + 1) l) (featFileName k, mk a)
            (by simp [hcond])]
        simp only [hst', List.append_assoc, List.singleton_append]
      · intro p hp
        rcases List.mem_cons.mp hp with rfl | hp'
        · rw [hcond]
          rw [if_neg (by simp)]
          rw [ihq (featFileName k) ?_]
          · simp [hst']
          · intro p' hp'
            obtain ⟨i, x⟩ := p'
            have hmem := List.mem_enumFrom hp'
            intro heq
            have hik := featFileName_injective _ _ heq
            omega
        · exact ihd p hp'
      · intro q hq
        rw [ihq q (fun p hp => hq p (List.mem_cons_of_mem _ hp))]
        have hqk : q ≠ featFileName k := hq (k, a) (List.mem_cons_self _ _)
        simp only [hst']
        rw [if_neg hqk]

/-- **C8.**  For every non-skipped sample (0-based index `i` in loader
iteration order), `_extract_medicalnet_features_to_dir` writes exactly one
record, at file name `feat_{i}.npz`, containing the feature-extractor
embedding of the intensity-normalized volume together with the sample's
`age` and `sex` metadata: the write log contains exactly one entry per
non-skipped sample, in order, and the final directory maps `feat_{i}.npz`
to that record. -/
theorem extract_medicalnet_one_record_per_sample {φ : Type}
    (loader : List VolSample) (dir0 : String → Option (FeatRecord φ))
    (feature_extractor : List F → φ) (skip_existing : Bool) :
    (extract_medicalnet_features_to_dir loader dir0 feature_extractor
          skip_existing).writes =
        loader.enum.filterMap (fun p =>
          if skip_existing && (dir0 (featFileName p.1)).isSome then none
          else some (featFileName p.1,
            { feat := feature_extractor
                (itensity_normalize p.2.image p.2.rand),
              age := p.2.age, sex := p.2.sex })) ∧
      ∀ p ∈ loader.enum,
        (skip_existing && (dir0 (featFileName p.1)).isSome) = false →
          (extract_medicalnet_features_to_dir loader dir0 feature_extractor
              skip_existing).dir (featFileName p.1) =
            some { feat := feature_extractor
                     (itensity_normalize p.2.image p.2.rand),
                   age := p.2.age, sex := p.2.sex } := by
  obtain ⟨hw, hd, -⟩ := extract_foldl_spec
    (fun data => ({ feat := feature_extractor
                      (itensity_normalize data.image data.rand),
                    age := data.age, sex := data.sex } : FeatRecord φ))
    skip_existing dir0 loader 0 ⟨dir0, 0, []⟩ (fun j _ => rfl)
  constructor
  · simpa using hw
  · intro p hp hcond
    have hthis := hd p hp
    rw [hcond] at hthis
    simpa using hthis

/-- **C8 (witness).** -/
theorem extract_medicalnet_one_record_per_sample_witness :
    (extract_medicalnet_features_to_dir
        [⟨[], fun _ => 0, 1, 2⟩] (fun _ => none) (fun _ => (0 : ℚ))
        true).dir (featFileName 0) =
      some { feat := (0 : ℚ), age := 1, sex := 2 } :=
  (extract_medicalnet_one_record_per_sample
      [⟨[], fun _ => 0, 1, 2⟩] (fun _ => none) (fun _ => (0 : ℚ)) true).2
    (0, ⟨[], fun _ => 0, 1, 2⟩)
    (by simp [List.enum, List.enumFrom])
    (by rfl)

/-- **C9.**  Loading a cache directory over the contiguous index range
`[0, count)` fails with a `MissingRecord` error whenever some expected
index has no record file — it never skips the gap and returns a silently
truncated collection. -/
theorem load_cache_missing_record (dir : String → Option β) (count i : ℕ)
    (hi : i < count) (hmiss : dir (featFileName i) = none) :
    ∃ j, load_cache dir count = .error (.missingRecord j) := by
  induction count with
  | zero => omega
  | succ n ihn =>
    by_cases hin : i < n
    · obtain ⟨j, hj⟩ := ihn hin
      exact ⟨j, by simp [load_cache, hj]⟩
    · have hieq : i = n := by omega
      subst hieq
      cases hlc : load_cache dir i with
      | error e =>
        cases e with
        | missingRecord j => exact ⟨j, by simp [load_cache, hlc]⟩
      | ok recs => exact ⟨i, by simp [load_cache, hlc, hmiss]⟩

/-- **C9 (witness).** -/
theorem load_cache_missing_record_witness :
    ∃ j, load_cache (fun _ => (none : Option ℚ)) 1 =
      .error (.missingRecord j) :=
  load_cache_missing_record (fun _ => (none : Option ℚ)) 1 0 (by decide) rfl

theorem map_fst_zip_take (g : γ → ε) :
    ∀ (l₁ : List γ) (l₂ : List δ),
      ((l₁.zip l₂).map fun p => g p.1) =
        (l₁.take (min l₁.length l₂.length)).map g := by
  intro l₁
  induction l₁ with
  | nil => intro l₂; simp
  | cons a l₁ ih =>
    intro l₂
    cases l₂ with
    | nil => simp
    | cons b l₂ =>
      simp only [List.zip_cons_cons, List.map_cons, List.length_cons,
        Nat.succ_min_succ, List.take_succ_cons]
      rw [ih l₂]

theorem map_snd_zip_take (g : δ → ε) :
    ∀ (l₁ : List γ) (l₂ : List δ),
      ((l₁.zip l₂).map fun p => g p.2) =
        (l₂.take (min l₁.length l₂.length)).map g := by
  intro l₁
  induction l₁ with
  | nil => intro l₂; simp
  | cons a l₁ ih =>
    intro l₂
    cases l₂ with
    | nil => simp
    | cons b l₂ =>
      simp only [List.zip_cons_cons, List.map_cons, List.length_cons,
        Nat.succ_min_succ, List.take_succ_cons]
      rw [ih l₂]

/-- **C10.**  In `evaluate_fid_medicalnet3d` and `evaluate_fid_imagenet2d`
the real and fake feature collections are paired with `zip` before
stacking, so when the two cache directories yield different record counts
only the first `min count_real count_fake` records of each collection
enter the distance computation; the excess records of the larger
collection are silently ignored and no error is raised. -/
theorem evaluate_fid_pairing_zip_truncates {φ : Type}
    (real_feat_loader fake_feat_loader : List (FeatRecord φ)) :
    evaluate_fid_pairing real_feat_loader fake_feat_loader =
      ((real_feat_loader.take
          (min real_feat_loader.length fake_feat_loader.length)).map
        (fun r => r.feat),
       (fake_feat_loader.take
          (min real_feat_loader.length fake_feat_loader.length)).map
        (fun r => r.feat)) := by
  rw [evaluate_fid_pairing, map_fst_zip_take, map_snd_zip_take]

theorem colMean_perm {d : ℕ} {A A' : List (Fin d → ℚ)} (h : A.Perm A') :
    colMean A' = colMean A := by
  funext j
  simp only [colMean]
  rw [← (h.map fun r => r j).sum_eq, ← h.length_eq]

theorem covMatrix_perm {d : ℕ} {A A' : List (Fin d → ℚ)} (h : A.Perm A') :
    covMatrix A' = covMatrix A := by
  have hm := colMean_perm h
  ext j k
  simp only [covMatrix, Matrix.of_apply]
  rw [hm,
    ← (h.map fun r => (r j - colMean A j) * (r k - colMean A k)).sum_eq,
    ← h.length_eq]

/-- **C7.**  The distributional distance is invariant under independent
row permutations of the real and of the fake feature matrix, for every
choice of the matrix square root: it depends only on each matrix's
per-column mean and covariance, which are order-free sums. -/
theorem frechet_distance_perm_invariant {d : ℕ}
    (sqrtm : Matrix (Fin d) (Fin d) ℚ → Matrix (Fin d) (Fin d) ℚ)
    (A A' B B' : List (Fin d → ℚ)) (hA : A.Perm A') (hB : B.Perm B') :
    frechet_distance sqrtm A' B' = frechet_distance sqrtm A B := by
  rw [frechet_distance, frechet_distance, colMean_perm hA, colMean_perm hB,
    covMatrix_perm hA, covMatrix_perm hB]

/-- **C7 (witness).** -/
theorem frechet_distance_perm_invariant_witness :
    frechet_distance (id : Matrix (Fin 1) (Fin 1) ℚ → Matrix (Fin 1) (Fin 1) ℚ)
        [fun _ => (3 : ℚ), fun _ => (1 : ℚ)] [fun _ => (5 : ℚ)] =
      frechet_distance (id : Matrix (Fin 1) (Fin 1) ℚ → Matrix (Fin 1) (Fin 1) ℚ)
        [fun _ => (1 : ℚ), fun _ => (3 : ℚ)] [fun _ => (5 : ℚ)] :=
  frechet_distance_perm_invariant id
    [fun _ => (1 : ℚ), fun _ => (3 : ℚ)]
    [fun _ => (3 : ℚ), fun _ => (1 : ℚ)]
    [fun _ => (5 : ℚ)] [fun _ => (5 : ℚ)]
    (List.Perm.swap (fun _ => (3 : ℚ)) (fun _ => (1 : ℚ)) [])
    (List.Perm.refl _)

end BrainEvals
